import Mathlib

/-!
Verification of the CIDR aggregation engine of `src/src/main.rs`
(`NetworkBlock`, `try_merge`, `optimize_blocks_simple`).

Machine integers are modelled on `Nat` with explicit wrap-around
(release-mode wrapping semantics of Rust: `% 2^32` on `u32` results,
shift amounts masked modulo the bit width, `u8` subtraction wrapping
modulo `2^8`).  Points where a debug build would instead panic on
overflow are noted in the doc comments.
-/

/-- Bitwise complement on a `u32` value (`!x` in the source, `x < 2^32`). -/
def u32not (x : Nat) : Nat := 4294967295 - x

/-- `u32` left shift `x << s` with release-mode semantics: the shift amount
is masked modulo the bit width (a debug build panics when `s ≥ 32`). -/
def u32shl (x s : Nat) : Nat := (x <<< (s % 32)) % 4294967296

/-- `u8` subtraction `a - b` with release-mode wrapping semantics
(a debug build panics when `b > a`); `a` is assumed below `256`. -/
def u8sub (a b : Nat) : Nat := (a + 256 - b % 256) % 256

/-- The struct `NetworkBlock` of main.rs: a 32-bit network address and a
prefix length (a `u8` in the source). -/
structure NetworkBlock where
  network : Nat
  prefix_len : Nat
deriving DecidableEq, Repr

namespace NetworkBlock

/-- `NetworkBlock::new`: mask the address down to `prefix_len` bits and
store it.  The mask is `!((1u32 << (32 - prefix_len)) - 1)`, or `0` when
`prefix_len == 0`. -/
def new (ip : Nat) (prefix_len : Nat) : NetworkBlock :=
  let mask := if prefix_len = 0 then 0 else u32not (u32shl 1 (u8sub 32 prefix_len) - 1)
  { network := ip &&& mask, prefix_len := prefix_len }

/-- `NetworkBlock::contains`: strict containment — `false` unless
`self.prefix_len < other.prefix_len`, then equality of both networks under
`self`'s mask. -/
def contains (self other : NetworkBlock) : Bool :=
  if self.prefix_len ≥ other.prefix_len then false
  else
    let mask := if self.prefix_len = 0 then 0 else u32not (u32shl 1 (u8sub 32 self.prefix_len) - 1)
    (self.network &&& mask) == (other.network &&& mask)

/-- `NetworkBlock::last`: `(self.network & mask) + !mask`, the highest
address of the block's range.  The sum never exceeds `2^32 - 1`, so the
`u32` addition is exact. -/
def last (self : NetworkBlock) : Nat :=
  let mask := if self.prefix_len = 0 then 0 else u32not (u32shl 1 (u8sub 32 self.prefix_len) - 1)
  (self.network &&& mask) + u32not mask

end NetworkBlock

/-- The free function `block_size` of main.rs: `1u32 << (32 - prefix)`
(for prefix `0` the shift amount is `32`: a debug build panics, release
wraps the shift to `0` and yields `1`). -/
def block_size (prefix_len : Nat) : Nat := u32shl 1 (u8sub 32 prefix_len)

/-- Recursion core of `u32::trailing_zeros`; the fuel (32 at the top call)
bounds the number of halvings for a nonzero `u32` argument. -/
def tzRec : Nat → Nat → Nat
  | 0, _ => 0
  | fuel + 1, x => if x % 2 = 1 then 0 else tzRec fuel (x / 2) + 1

/-- `u32::trailing_zeros`: `32` on the value `0`. -/
def u32tz (x : Nat) : Nat := if x = 0 then 32 else tzRec 32 x

/-- `try_merge` of main.rs: merge two blocks when they have equal prefix
length and `b` starts right after `a` ends.  In a debug build
`a.last() + 1` overflows when `a` ends at the highest address, and
`block_size + block_size` overflows at prefix length `1`; release-mode
wrapping is modelled, as everywhere in this file. -/
def try_merge (a b : NetworkBlock) : Option NetworkBlock :=
  if a.prefix_len == b.prefix_len && (a.last + 1) % 4294967296 == b.network then
    let range_size := (block_size a.prefix_len + block_size b.prefix_len) % 4294967296
    let prefix_len := 32 - u32tz range_size
    some (NetworkBlock.new a.network prefix_len)
  else
    none

/-- The comparator of `optimize_blocks_simple`'s `sort_by`: lexicographic
on `(network, prefix_len)`. -/
def blockLe (a b : NetworkBlock) : Prop :=
  a.network < b.network ∨ (a.network = b.network ∧ a.prefix_len ≤ b.prefix_len)

instance : DecidableRel blockLe := fun a b => by unfold blockLe; infer_instance

instance : IsTotal NetworkBlock blockLe := ⟨fun a b => by unfold blockLe; omega⟩

instance : IsTrans NetworkBlock blockLe := ⟨fun a b c => by unfold blockLe; omega⟩

instance : IsAntisymm NetworkBlock blockLe :=
  ⟨fun a b h1 h2 => by
    cases a; cases b; unfold blockLe at h1 h2
    dsimp only at h1 h2; simp only [NetworkBlock.mk.injEq]; omega⟩

/-- The sort of `optimize_blocks_simple` (`Vec::sort_by`, a stable sort,
with the lexicographic comparator).  The comparator is antisymmetric — two
blocks tied under it are equal — so every sorting algorithm returns the one
sorted permutation; insertion sort is the executable model. -/
def sortBlocks (l : List NetworkBlock) : List NetworkBlock :=
  List.insertionSort blockLe l

/-- One run of the cascading-merge `loop` of `optimize_blocks_simple`.
The stack is held top-first (the head is the Vec's last element).  Every
iteration shortens the stack, so the stack length at entry bounds the
iteration count; `fuel` carries that bound to keep the recursion
structural. -/
def cascadeF : Nat → List NetworkBlock → List NetworkBlock
  | 0, s => s
  | fuel + 1, s =>
    match s with
    | b :: a :: rest =>
      match try_merge a b with
      | some parent =>
        match rest with
        | prev :: _ =>
          if prev.contains parent then cascadeF fuel rest
          else cascadeF fuel (parent :: rest)
        | [] => cascadeF fuel (parent :: rest)
      | none => s
    | _ => s

/-- The cascading-merge loop run on a stack, with enough fuel. -/
def cascade (s : List NetworkBlock) : List NetworkBlock := cascadeF s.length s

/-- The `for` loop of `optimize_blocks_simple` over the sorted blocks:
skip a block contained in the stack top, otherwise push it and cascade.
The stack is top-first. -/
def sweepLoop : List NetworkBlock → List NetworkBlock → List NetworkBlock
  | stack, [] => stack
  | stack, blk :: rest =>
    match stack with
    | top :: _ =>
      if top.contains blk then sweepLoop stack rest
      else sweepLoop (cascade (blk :: stack)) rest
    | [] => sweepLoop (cascade (blk :: stack)) rest

/-- `optimize_blocks_simple` of main.rs (the Aggregation Sweep).  Inputs of
length at most one are returned untouched; otherwise the input is sorted
and swept.  The result Vec grows bottom-first, so the top-first stack is
reversed at the end. -/
def optimize_blocks_simple (blocks : List NetworkBlock) : List NetworkBlock :=
  if blocks.length ≤ 1 then blocks
  else (sweepLoop [] (sortBlocks blocks)).reverse

/-- The spec's derived value `mask(p)`: `0` for `p = 0`, otherwise the top
`p` bits set, i.e. `2^32 - 2^(32-p)` (one closed form covers both cases). -/
def maskBits (p : Nat) : Nat := 2 ^ 32 - 2 ^ (32 - p)

/-- The spec's derived value `size(p) = 2^(32-p)`, as exact arithmetic
(no `u32` wrap, so `size(0)` is the full `2^32`). -/
def sizeN (p : Nat) : Nat := 2 ^ (32 - p)

/-- Canonical-form invariant of the spec (§3): the fields are in
`u8`-prefix/`u32` range and the network address is fixed by masking to
`prefix_len` bits. -/
def Canonical (b : NetworkBlock) : Prop :=
  b.prefix_len ≤ 32 ∧ b.network < 2 ^ 32 ∧ b.network &&& maskBits b.prefix_len = b.network

instance (b : NetworkBlock) : Decidable (Canonical b) := by unfold Canonical; infer_instance

/-- Address `x` lies in the range of block `b`. -/
def inBlock (b : NetworkBlock) (x : Nat) : Bool :=
  decide (b.network ≤ x) && decide (x ≤ b.last)

/-- Address `x` lies in the union of the ranges of the blocks of `l`. -/
def coversAddr (l : List NetworkBlock) (x : Nat) : Bool :=
  l.any (fun b => inBlock b x)

/-- The error of the spec's §7 taxonomy for an over-long prefix. -/
inductive BlockError where
  | invalidLen
deriving DecidableEq

/-- Modelled from the spec (§4.1, §7): `construct(address, prefix_len)`
fails with the InvalidPrefix error if `prefix_len > 32`, otherwise masks
the address down to `prefix_len` bits and stores it.  The source has no
fallible constructor; this definition follows the spec's words, for
comparison with `NetworkBlock.new`. -/
def construct_spec (ip : Nat) (prefix_len : Nat) : Except BlockError NetworkBlock :=
  if prefix_len > 32 then .error .invalidLen
  else .ok { network := ip &&& maskBits prefix_len, prefix_len := prefix_len }

/-! ### Arithmetic characterization of the bit operations -/

theorem two_pow_32_eq : (2 : Nat) ^ 32 = 4294967296 := by norm_num

/-- Conjunction with a mask whose low `k` bits are clear and whose bits `k`
to `w-1` are set rounds `x % 2^w` down to a multiple of `2^k`. -/
theorem land_himask (x k w : Nat) (hk : k ≤ w) :
    x &&& (2 ^ w - 2 ^ k) = x % 2 ^ w / 2 ^ k * 2 ^ k := by
  have hmask : 2 ^ w - 2 ^ k = (2 ^ (w - k) - 1) <<< k := by
    rw [Nat.shiftLeft_eq, Nat.sub_mul, one_mul, ← pow_add]
    congr 2
    omega
  have hrhs : x % 2 ^ w / 2 ^ k * 2 ^ k = (x % 2 ^ w) >>> k <<< k := by
    rw [Nat.shiftLeft_eq, Nat.shiftRight_eq_div_pow]
  rw [hmask, hrhs]
  apply Nat.eq_of_testBit_eq
  intro i
  rw [Nat.testBit_land, Nat.testBit_shiftLeft, Nat.testBit_shiftLeft,
    Nat.testBit_two_pow_sub_one, Nat.testBit_shiftRight, Nat.testBit_mod_two_pow]
  by_cases h1 : k ≤ i
  · have h3 : k + (i - k) = i := by omega
    rw [h3]
    have ha : decide (i ≥ k) = true := by simp [h1]
    rw [ha]
    by_cases h2 : i < w
    · have hb : decide (i - k < w - k) = true := by simp only [decide_eq_true_eq]; omega
      have hc : decide (i < w) = true := by simp [h2]
      rw [hb, hc]
      simp [Bool.and_comm]
    · have hb : decide (i - k < w - k) = false := by simp only [decide_eq_false_iff_not]; omega
      have hc : decide (i < w) = false := by simp [h2]
      rw [hb, hc]
      simp
  · have ha : decide (i ≥ k) = false := by simp [h1]
    rw [ha]
    simp

/-- The mask expression of `NetworkBlock::new`/`contains`/`last` equals the
spec's `mask(p)` for every in-range prefix length. -/
theorem codeMask_eq (p : Nat) (hp : p ≤ 32) :
    (if p = 0 then 0 else u32not (u32shl 1 (u8sub 32 p) - 1)) = maskBits p := by
  by_cases h0 : p = 0
  · subst h0
    simp [maskBits]
  · rw [if_neg h0]
    have h1 : u8sub 32 p = 32 - p := by unfold u8sub; omega
    have hlt : 32 - p < 32 := by omega
    have hpow : (2 : Nat) ^ (32 - p) < 2 ^ 32 := Nat.pow_lt_pow_right (by omega) hlt
    have h2 : u32shl 1 (32 - p) = 2 ^ (32 - p) := by
      unfold u32shl
      rw [Nat.mod_eq_of_lt hlt, Nat.shiftLeft_eq, one_mul]
      exact Nat.mod_eq_of_lt (two_pow_32_eq ▸ hpow)
    rw [h1, h2]
    unfold u32not maskBits
    have hge : (1 : Nat) ≤ 2 ^ (32 - p) := Nat.one_le_two_pow
    rw [two_pow_32_eq] at *
    omega

theorem new_prefix_len (ip p : Nat) : (NetworkBlock.new ip p).prefix_len = p := rfl

theorem new_network (ip p : Nat) (hp : p ≤ 32) :
    (NetworkBlock.new ip p).network = ip % 2 ^ 32 / 2 ^ (32 - p) * 2 ^ (32 - p) := by
  show ip &&& _ = _
  rw [codeMask_eq p hp]
  unfold maskBits
  exact land_himask ip (32 - p) 32 (by omega)

/-- A canonically aligned address is untouched by `NetworkBlock::new`. -/
theorem new_aligned (n p : Nat) (hp : p ≤ 32) (hn : n < 2 ^ 32)
    (hal : n % 2 ^ (32 - p) = 0) : NetworkBlock.new n p = ⟨n, p⟩ := by
  have h1 := new_network n p hp
  rw [Nat.mod_eq_of_lt hn, Nat.div_mul_cancel (Nat.dvd_of_mod_eq_zero hal)] at h1
  cases hb : NetworkBlock.new n p
  simp only [NetworkBlock.mk.injEq]
  rw [hb] at h1
  have h2 := new_prefix_len n p
  rw [hb] at h2
  exact ⟨h1, h2⟩

/-- `last` of a canonically aligned block is the top of its range. -/
theorem last_eq (n p : Nat) (hp : p ≤ 32) (hn : n < 2 ^ 32)
    (hal : n % 2 ^ (32 - p) = 0) :
    NetworkBlock.last ⟨n, p⟩ = n + (2 ^ (32 - p) - 1) := by
  show (n &&& _) + u32not _ = _
  rw [codeMask_eq p hp]
  unfold maskBits
  rw [land_himask n (32 - p) 32 (by omega), Nat.mod_eq_of_lt hn,
    Nat.div_mul_cancel (Nat.dvd_of_mod_eq_zero hal)]
  unfold u32not
  have hge : (1 : Nat) ≤ 2 ^ (32 - p) := Nat.one_le_two_pow
  have hle : (2 : Nat) ^ (32 - p) ≤ 2 ^ 32 := Nat.pow_le_pow_right (by omega) (by omega)
  rw [two_pow_32_eq] at *
  omega

/-- `contains` is `false` whenever the first block's prefix is not strictly
coarser. -/
theorem contains_ge (n p n' p' : Nat) (h : p' ≤ p) :
    NetworkBlock.contains ⟨n, p⟩ ⟨n', p'⟩ = false := by
  unfold NetworkBlock.contains
  rw [if_pos h]

/-- `contains` between blocks aligned to the first block's boundary is plain
address equality (under the prefix comparison). -/
theorem contains_aligned (n p n' p' : Nat) (hlt : p < p') (hp : p ≤ 32)
    (hn : n < 2 ^ 32) (hn' : n' < 2 ^ 32) (hal : n % 2 ^ (32 - p) = 0)
    (hal' : n' % 2 ^ (32 - p) = 0) :
    NetworkBlock.contains ⟨n, p⟩ ⟨n', p'⟩ = (n == n') := by
  unfold NetworkBlock.contains
  dsimp only
  rw [if_neg (by omega)]
  simp only [codeMask_eq p hp]
  unfold maskBits
  rw [land_himask n (32 - p) 32 (by omega), land_himask n' (32 - p) 32 (by omega),
    Nat.mod_eq_of_lt hn, Nat.mod_eq_of_lt hn',
    Nat.div_mul_cancel (Nat.dvd_of_mod_eq_zero hal),
    Nat.div_mul_cancel (Nat.dvd_of_mod_eq_zero hal')]

theorem tzRec_pow (k : Nat) : ∀ fuel, k < fuel → tzRec fuel (2 ^ k) = k := by
  induction k with
  | zero =>
    intro fuel h
    match fuel with
    | f + 1 => simp [tzRec]
  | succ k ih =>
    intro fuel h
    match fuel with
    | f + 1 =>
      have heven : 2 ^ (k + 1) % 2 = 0 := by
        simp [pow_succ, Nat.mul_mod_left]
      have hhalf : 2 ^ (k + 1) / 2 = 2 ^ k := by
        rw [pow_succ]
        exact Nat.mul_div_cancel _ (by omega)
      simp only [tzRec, heven]
      rw [if_neg (by omega), hhalf, ih f (by omega)]

theorem u32tz_pow (k : Nat) (h : k < 32) : u32tz (2 ^ k) = k := by
  unfold u32tz
  rw [if_neg (Nat.two_pow_pos k).ne']
  exact tzRec_pow k 32 h

theorem u32shl_one (s : Nat) (h : s < 32) : u32shl 1 s = 2 ^ s := by
  unfold u32shl
  rw [Nat.mod_eq_of_lt h, Nat.shiftLeft_eq, one_mul]
  exact Nat.mod_eq_of_lt (two_pow_32_eq ▸ Nat.pow_lt_pow_right (by omega) h)

theorem block_size_eq (p : Nat) (h1 : 1 ≤ p) (h2 : p ≤ 32) :
    block_size p = 2 ^ (32 - p) := by
  unfold block_size
  have hs : u8sub 32 p = 32 - p := by unfold u8sub; omega
  rw [hs]
  exact u32shl_one _ (by omega)

/-- `try_merge` on an adjacent equal-prefix pair (`2 ≤ p`, no wrap at the
top of the address space): the guards pass and the result is the first
address re-masked one bit coarser. -/
theorem try_merge_adj (n p : Nat) (h2p : 2 ≤ p) (hp : p ≤ 32) (hn : n < 2 ^ 32)
    (hal : n % 2 ^ (32 - p) = 0) (htop : n + 2 ^ (32 - p) < 2 ^ 32) :
    try_merge ⟨n, p⟩ ⟨n + 2 ^ (32 - p), p⟩ = some (NetworkBlock.new n (p - 1)) := by
  have hge : (1 : Nat) ≤ 2 ^ (32 - p) := Nat.one_le_two_pow
  have hlast : (NetworkBlock.last ⟨n, p⟩ + 1) % 4294967296 = n + 2 ^ (32 - p) := by
    rw [last_eq n p hp hn hal]
    have h1 : n + (2 ^ (32 - p) - 1) + 1 = n + 2 ^ (32 - p) := by omega
    rw [h1]
    exact Nat.mod_eq_of_lt (two_pow_32_eq ▸ htop)
  have hbs : (block_size p + block_size p) % 4294967296 = 2 ^ (33 - p) := by
    rw [block_size_eq p (by omega) hp]
    have h33 : (33 - p) = (32 - p) + 1 := by omega
    have hsum : 2 ^ (32 - p) + 2 ^ (32 - p) = 2 ^ (33 - p) := by
      rw [h33, pow_succ]
      omega
    rw [hsum]
    refine Nat.mod_eq_of_lt (two_pow_32_eq ▸ Nat.pow_lt_pow_right (by omega) (by omega))
  have htz : u32tz (2 ^ (33 - p)) = 33 - p := u32tz_pow _ (by omega)
  have hsub : 32 - (33 - p) = p - 1 := by omega
  unfold try_merge
  dsimp only
  rw [hlast]
  simp only [beq_self_eq_true, Bool.and_self, eq_self_iff_true, if_true]
  rw [hbs, htz, hsub]

/-! ### Step equations for the sweep -/

theorem cascadeF_succ (f : Nat) (b a : NetworkBlock) (rest : List NetworkBlock) :
    cascadeF (f + 1) (b :: a :: rest) =
      match try_merge a b with
      | some parent =>
        match rest with
        | prev :: _ =>
          if prev.contains parent then cascadeF f rest else cascadeF f (parent :: rest)
        | [] => cascadeF f (parent :: rest)
      | none => b :: a :: rest := rfl

theorem cascadeF_small (fuel : Nat) (s : List NetworkBlock) (h : s.length < 2) :
    cascadeF fuel s = s := by
  match fuel, s with
  | 0, s => rfl
  | f + 1, [] => rfl
  | f + 1, [x] => rfl
  | f + 1, b :: a :: rest => simp only [List.length_cons] at h; omega

theorem sweepLoop_nil (stack : List NetworkBlock) : sweepLoop stack [] = stack := rfl

theorem sweepLoop_empty (blk : NetworkBlock) (rest : List NetworkBlock) :
    sweepLoop [] (blk :: rest) = sweepLoop (cascade [blk]) rest := rfl

theorem sweepLoop_cons (top : NetworkBlock) (stail : List NetworkBlock)
    (blk : NetworkBlock) (rest : List NetworkBlock) :
    sweepLoop (top :: stail) (blk :: rest) =
      if top.contains blk then sweepLoop (top :: stail) rest
      else sweepLoop (cascade (blk :: top :: stail)) rest := rfl

/-! ### Canonicity preservation (spec §3/§8 masking invariant) -/

theorem new_canon (ip p : Nat) (hp : p ≤ 32) : Canonical (NetworkBlock.new ip p) := by
  have hnet := new_network ip p hp
  have hlt : ip % 2 ^ 32 / 2 ^ (32 - p) * 2 ^ (32 - p) < 2 ^ 32 :=
    Nat.lt_of_le_of_lt (Nat.div_mul_le_self _ _) (Nat.mod_lt ip (Nat.two_pow_pos 32))
  refine ⟨hp, ?_, ?_⟩
  · rw [hnet]
    exact hlt
  · rw [new_prefix_len, hnet]
    unfold maskBits
    rw [land_himask _ (32 - p) 32 (by omega), Nat.mod_eq_of_lt hlt,
      Nat.mul_div_cancel _ (Nat.two_pow_pos (32 - p))]

theorem try_merge_canon (a b c : NetworkBlock) (h : try_merge a b = some c) :
    Canonical c := by
  unfold try_merge at h
  split at h
  · rw [Option.some.injEq] at h
    rw [← h]
    exact new_canon _ _ (Nat.sub_le _ _)
  · exact absurd h (by simp)

theorem cascadeF_canon (fuel : Nat) :
    ∀ (s : List NetworkBlock), (∀ x ∈ s, Canonical x) →
      ∀ x ∈ cascadeF fuel s, Canonical x := by
  induction fuel with
  | zero => intro s h x hx; exact h x hx
  | succ f ih =>
    intro s h x hx
    rcases s with _ | ⟨b, _ | ⟨a, rest⟩⟩
    · exact h x hx
    · exact h x hx
    · rw [cascadeF_succ] at hx
      rcases htm : try_merge a b with _ | parent
      · rw [htm] at hx
        exact h x hx
      · have hparent : Canonical parent := try_merge_canon a b parent htm
        have hrest : ∀ y ∈ rest, Canonical y := fun y hy => h y (by simp [hy])
        rw [htm] at hx
        rcases rest with _ | ⟨prev, rtail⟩
        · exact ih (parent :: []) (by intro y hy; simp at hy; rw [hy]; exact hparent) x hx
        · dsimp only at hx
          by_cases hc : prev.contains parent
          · rw [if_pos hc] at hx
            exact ih _ hrest x hx
          · rw [if_neg hc] at hx
            refine ih _ ?_ x hx
            intro y hy
            rcases List.mem_cons.mp hy with h1 | h1
            · rw [h1]; exact hparent
            · exact hrest y h1

theorem sweepLoop_canon (l : List NetworkBlock) :
    ∀ (stack : List NetworkBlock), (∀ x ∈ stack, Canonical x) →
      (∀ x ∈ l, Canonical x) → ∀ x ∈ sweepLoop stack l, Canonical x := by
  induction l with
  | nil => intro stack hs _ x hx; rw [sweepLoop_nil] at hx; exact hs x hx
  | cons blk rest ih =>
    intro stack hs hl x hx
    have hblk : Canonical blk := hl blk (by simp)
    have hrest : ∀ y ∈ rest, Canonical y := fun y hy => hl y (by simp [hy])
    rcases stack with _ | ⟨top, stail⟩
    · rw [sweepLoop_empty] at hx
      refine ih _ ?_ hrest x hx
      intro y hy
      unfold cascade at hy
      refine cascadeF_canon _ _ ?_ y hy
      intro z hz
      simp at hz
      rw [hz]
      exact hblk
    · rw [sweepLoop_cons] at hx
      by_cases hc : top.contains blk
      · rw [if_pos hc] at hx
        exact ih _ hs hrest x hx
      · rw [if_neg hc] at hx
        refine ih _ ?_ hrest x hx
        intro y hy
        unfold cascade at hy
        refine cascadeF_canon _ _ ?_ y hy
        intro z hz
        rcases List.mem_cons.mp hz with h1 | h1
        · rw [h1]; exact hblk
        · exact hs z h1

theorem optimize_canon (l : List NetworkBlock) (h : ∀ x ∈ l, Canonical x) :
    ∀ x ∈ optimize_blocks_simple l, Canonical x := by
  intro x hx
  unfold optimize_blocks_simple at hx
  by_cases h1 : l.length ≤ 1
  · rw [if_pos h1] at hx
    exact h x hx
  · rw [if_neg h1] at hx
    rw [List.mem_reverse] at hx
    refine sweepLoop_canon _ [] (by simp) ?_ x hx
    intro y hy
    exact h y ((List.perm_insertionSort blockLe l).mem_iff.mp hy)

/-! ### Permutation invariance of the sweep -/

theorem sortBlocks_eq_self (l : List NetworkBlock) (h : List.Sorted blockLe l) :
    sortBlocks l = l :=
  List.eq_of_perm_of_sorted (List.perm_insertionSort blockLe l)
    (List.sorted_insertionSort blockLe l) h

theorem optimize_perm_eq (v w : List NetworkBlock) (h : v.Perm w) :
    optimize_blocks_simple v = optimize_blocks_simple w := by
  have hlen := h.length_eq
  unfold optimize_blocks_simple
  by_cases h1 : v.length ≤ 1
  · rw [if_pos h1, if_pos (by omega)]
    rcases v with _ | ⟨a, _ | ⟨b, t⟩⟩
    · rw [h.symm.eq_nil]
    · rw [List.perm_singleton.mp h.symm]
    · simp only [List.length_cons] at h1
      omega
  · rw [if_neg h1, if_neg (by omega)]
    have hsort : sortBlocks v = sortBlocks w := by
      unfold sortBlocks
      refine List.eq_of_perm_of_sorted ?_ (List.sorted_insertionSort blockLe v)
        (List.sorted_insertionSort blockLe w)
      exact (List.perm_insertionSort blockLe v).trans
        (h.trans (List.perm_insertionSort blockLe w).symm)
    rw [hsort]

/-- The sweep on the four aligned quarters of a `/24`, fed in ascending
order: two `/25` merges cascade into the covering `/24`. -/
theorem sweep_four_quarters_sorted (n : Nat) (hn : n < 2 ^ 32) (hal : n % 256 = 0) :
    optimize_blocks_simple [⟨n, 26⟩, ⟨n + 64, 26⟩, ⟨n + 128, 26⟩, ⟨n + 192, 26⟩] =
      [⟨n, 24⟩] := by
  have h32 : (2 : Nat) ^ 32 = 4294967296 := two_pow_32_eq
  have hn' : n < 4294967296 := by omega
  have hb : n + 256 ≤ 4294967296 := by omega
  have e6 : (2 : Nat) ^ (32 - 26) = 64 := by norm_num
  have e7 : (2 : Nat) ^ (32 - 25) = 128 := by norm_num
  have e8 : (2 : Nat) ^ (32 - 24) = 256 := by norm_num
  -- the three merges
  have f1 : try_merge ⟨n, 26⟩ ⟨n + 64, 26⟩ = some ⟨n, 25⟩ := by
    have h := try_merge_adj n 26 (by omega) (by omega) hn (by rw [e6]; omega)
      (by rw [e6]; omega)
    rw [e6] at h
    rw [h, new_aligned n 25 (by omega) hn (by rw [e7]; omega)]
  have f2 : try_merge ⟨n + 128, 26⟩ ⟨n + 192, 26⟩ = some ⟨n + 128, 25⟩ := by
    have h := try_merge_adj (n + 128) 26 (by omega) (by omega) (by omega)
      (by rw [e6]; omega) (by rw [e6]; omega)
    rw [e6, show n + 128 + 64 = n + 192 by omega] at h
    rw [h, new_aligned (n + 128) 25 (by omega) (by omega) (by rw [e7]; omega)]
  have f3 : try_merge ⟨n, 25⟩ ⟨n + 128, 25⟩ = some ⟨n, 24⟩ := by
    have h := try_merge_adj n 25 (by omega) (by omega) hn (by rw [e7]; omega)
      (by rw [e7]; omega)
    rw [e7] at h
    rw [h, new_aligned n 24 (by omega) hn (by rw [e8]; omega)]
  -- the containment tests all fail
  have c1 : NetworkBlock.contains ⟨n, 26⟩ ⟨n + 64, 26⟩ = false :=
    contains_ge n 26 (n + 64) 26 (by omega)
  have c2 : NetworkBlock.contains ⟨n, 25⟩ ⟨n + 128, 26⟩ = false := by
    rw [contains_aligned n 25 (n + 128) 26 (by omega) (by omega) hn (by omega)
      (by rw [e7]; omega) (by rw [e7]; omega)]
    simp only [beq_eq_false_iff_ne, ne_eq]
    omega
  have c3 : NetworkBlock.contains ⟨n + 128, 26⟩ ⟨n + 192, 26⟩ = false :=
    contains_ge (n + 128) 26 (n + 192) 26 (by omega)
  -- the input is already sorted
  have hsorted : List.Sorted blockLe [⟨n, 26⟩, ⟨n + 64, 26⟩, ⟨n + 128, 26⟩, ⟨n + 192, 26⟩] := by
    simp only [List.sorted_cons, List.mem_cons, List.mem_singleton, List.not_mem_nil]
    refine ⟨?_, ?_, ?_, by simp [List.Sorted]⟩ <;>
      intro b hb <;> unfold blockLe <;>
      rcases hb with h | h | h | h <;> first | (rw [h]; dsimp only; omega) | simp at h
  unfold optimize_blocks_simple
  rw [if_neg (by simp)]
  rw [sortBlocks_eq_self _ hsorted]
  rw [sweepLoop_empty]
  rw [show cascade [(⟨n, 26⟩ : NetworkBlock)] = [⟨n, 26⟩] from cascadeF_small _ _ (by simp)]
  rw [sweepLoop_cons, c1, if_neg (by simp)]
  have hcas1 : cascade [⟨n + 64, 26⟩, ⟨n, 26⟩] = [⟨n, 25⟩] := by
    unfold cascade
    simp only [List.length_cons, List.length_nil]
    rw [cascadeF_succ, f1]
    exact cascadeF_small _ _ (by simp)
  rw [hcas1]
  rw [sweepLoop_cons, c2, if_neg (by simp)]
  have hcas2 : cascade [⟨n + 128, 26⟩, ⟨n, 25⟩] = [⟨n + 128, 26⟩, ⟨n, 25⟩] := by
    unfold cascade
    simp only [List.length_cons, List.length_nil]
    rw [cascadeF_succ]
    rw [show try_merge ⟨n, 25⟩ ⟨n + 128, 26⟩ = none from ?_]
    · unfold try_merge
      dsimp only
      rw [if_neg (by simp)]
  rw [hcas2]
  rw [sweepLoop_cons, c3, if_neg (by simp)]
  have hcas3 : cascade [⟨n + 192, 26⟩, ⟨n + 128, 26⟩, ⟨n, 25⟩] = [⟨n, 24⟩] := by
    unfold cascade
    simp only [List.length_cons, List.length_nil]
    rw [cascadeF_succ, f2]
    dsimp only
    rw [contains_ge n 25 (n + 128) 25 (by omega), if_neg (by simp)]
    rw [cascadeF_succ, f3]
    exact cascadeF_small _ _ (by simp)
  rw [hcas3]
  rw [sweepLoop_nil]
  rfl

/-! ### The claims -/

/-- Claim C1: merge soundness fails on the code.  Evaluation at the failing
input: `1.0.1.0/24` and `1.0.2.0/24` are adjacent with equal prefix length
but are not the two halves of a common aligned supernet; `try_merge`
nevertheless returns `1.0.0.0/23`, which does not contain the second
argument (so the merged range is not the union of the two input ranges). -/
theorem try_merge_misaligned_unsound :
    try_merge ⟨16777472, 24⟩ ⟨16777728, 24⟩ = some ⟨16777216, 23⟩ ∧
    NetworkBlock.contains ⟨16777216, 23⟩ ⟨16777728, 24⟩ = false := by decide

/-- Claim C2: coverage preservation fails on the code.  Evaluation at the
failing input `[1.0.1.0/24, 1.0.2.0/24]`: the sweep returns `[1.0.0.0/23]`;
the address `1.0.2.0` is covered by the input but not by the output (and
`1.0.0.0` is covered by the output but not by the input). -/
theorem sweep_coverage_lost :
    optimize_blocks_simple [⟨16777472, 24⟩, ⟨16777728, 24⟩] = [⟨16777216, 23⟩] ∧
    coversAddr [⟨16777472, 24⟩, ⟨16777728, 24⟩] 16777728 = true ∧
    coversAddr [⟨16777216, 23⟩] 16777728 = false ∧
    coversAddr [⟨16777216, 23⟩] 16777216 = true ∧
    coversAddr [⟨16777472, 24⟩, ⟨16777728, 24⟩] 16777216 = false := by decide

/-- Claim C3: `try_merge` does not reject a non-power-of-two-aligned
combined range.  The combined range of `1.0.1.0/24` and `1.0.2.0/24` is 512
addresses starting at `1.0.1.0`, which is not 512-aligned, yet `try_merge`
does not return `none` — the alignment case of the claim fails on the code
(the unequal-prefix and non-contiguous cases do hold). -/
theorem try_merge_ignores_alignment :
    16777472 % 512 ≠ 0 ∧ try_merge ⟨16777472, 24⟩ ⟨16777728, 24⟩ ≠ none := by decide

/-- Claim C4 counterexample: constructing a block with `prefix_len = 33 > 32`
does not fail with an InvalidPrefix error: `NetworkBlock::new` is infallible
and returns a block (under release-mode wrapping the mask degenerates to the
single top bit; a debug build would panic), while the construct of the
spec's words signals the error. -/
theorem new_oversized_no_error :
    NetworkBlock.new 5 33 = ⟨0, 33⟩ ∧
    construct_spec 5 33 = Except.error BlockError.invalidLen :=
  ⟨by decide, rfl⟩

/-- Claim C4 (amended): for every `prefix_len ≤ 32` construction succeeds
and stores the address masked down to `prefix_len` bits — `NetworkBlock::new`
agrees with the spec's fallible construct on that whole domain; only the
`prefix_len > 32` error behaviour of the claim fails on the code. -/
theorem construct_agrees_upto_32 (ip p : Nat) (hp : p ≤ 32) :
    construct_spec ip p = Except.ok (NetworkBlock.new ip p) ∧
    (NetworkBlock.new ip p).network = ip &&& maskBits p := by
  have hmask : (if p = 0 then 0 else u32not (u32shl 1 (u8sub 32 p) - 1)) = maskBits p :=
    codeMask_eq p hp
  constructor
  · unfold construct_spec
    rw [if_neg (by omega)]
    simp only [NetworkBlock.new]
    rw [hmask]
  · simp only [NetworkBlock.new]
    rw [hmask]

/-- Witness for the amended C4 at `1.2.3.4/24`. -/
theorem construct_agrees_upto_32_witness :
    construct_spec 16909060 24 = Except.ok (NetworkBlock.new 16909060 24) ∧
    (NetworkBlock.new 16909060 24).network = 16909060 &&& maskBits 24 :=
  construct_agrees_upto_32 16909060 24 (by decide)

/-- Claim C5: a prefix-0 block is not merge-inert and the boundary
arithmetic does overflow.  `a.last() + 1` wraps (in a debug build it
panics): merging `0.0.0.0/0` with itself yields `0.0.0.0/31`, and merging
`255.255.255.255/32` (whose range ends at the highest address) with
`0.0.0.0/32` yields `255.255.255.254/31` — the claim says both return
nothing without overflow. -/
theorem try_merge_wrap_at_boundary :
    try_merge ⟨0, 0⟩ ⟨0, 0⟩ = some ⟨0, 31⟩ ∧
    try_merge ⟨4294967295, 32⟩ ⟨0, 32⟩ = some ⟨4294967294, 31⟩ := by decide

/-- Claim C6: on an input consisting (in any order) of the four aligned
`/26` quarters of a `/24`, the Aggregation Sweep outputs exactly the
covering `/24` (the cascade merges the two `/25` halves and then the
`/24`). -/
theorem sweep_four_quarters (n : Nat) (l : List NetworkBlock) (hn : n < 2 ^ 32)
    (hal : n % 256 = 0)
    (hperm : l.Perm [⟨n, 26⟩, ⟨n + 64, 26⟩, ⟨n + 128, 26⟩, ⟨n + 192, 26⟩]) :
    optimize_blocks_simple l = [⟨n, 24⟩] := by
  rw [optimize_perm_eq l _ hperm]
  exact sweep_four_quarters_sorted n hn hal

/-- Witness for C6: the four `/26` quarters of `1.0.0.0/24`, out of order,
collapse to `1.0.0.0/24`. -/
theorem sweep_four_quarters_witness :
    optimize_blocks_simple
      [⟨16777280, 26⟩, ⟨16777216, 26⟩, ⟨16777408, 26⟩, ⟨16777344, 26⟩] =
      [⟨16777216, 24⟩] :=
  sweep_four_quarters 16777216 _ (by decide) (by decide) (by decide)

/-- Claim C7: the Aggregation Sweep is not idempotent.  Evaluation at the
failing input `[1.0.0.128/25, 1.0.1.0/24, 1.0.2.0/24]`: one run returns
`[1.0.0.128/25, 1.0.0.0/23]` (a misaligned merge produced a parent that
extends below and swallows the `/25`), a second run returns
`[1.0.0.0/23]`. -/
theorem sweep_not_idempotent :
    optimize_blocks_simple [⟨16777344, 25⟩, ⟨16777472, 24⟩, ⟨16777728, 24⟩] =
      [⟨16777344, 25⟩, ⟨16777216, 23⟩] ∧
    optimize_blocks_simple [⟨16777344, 25⟩, ⟨16777216, 23⟩] = [⟨16777216, 23⟩] ∧
    optimize_blocks_simple
        (optimize_blocks_simple [⟨16777344, 25⟩, ⟨16777472, 24⟩, ⟨16777728, 24⟩]) ≠
      optimize_blocks_simple [⟨16777344, 25⟩, ⟨16777472, 24⟩, ⟨16777728, 24⟩] := by decide

/-- Claim C8: the sweep's output list is not always in ascending
network-address order.  Evaluation at the failing input
`[1.0.0.128/25, 1.0.1.0/24, 1.0.2.0/24]`: the output is
`[1.0.0.128/25, 1.0.0.0/23]`, whose second entry has a lower network
address than its first (the misaligned merge reordered the stack, and its
result even contains the entry below it). -/
theorem sweep_output_not_sorted :
    optimize_blocks_simple [⟨16777344, 25⟩, ⟨16777472, 24⟩, ⟨16777728, 24⟩] =
      [⟨16777344, 25⟩, ⟨16777216, 23⟩] ∧
    ¬ blockLe ⟨16777344, 25⟩ ⟨16777216, 23⟩ ∧
    NetworkBlock.contains ⟨16777216, 23⟩ ⟨16777344, 25⟩ = true := by decide

/-- Claim C9: the masking invariant `network == network & mask(prefix_len)`
holds for every constructed block and is preserved by every operation of
the engine: construction, merging, and the sweep on canonical inputs. -/
theorem engine_preserves_canonical :
    (∀ ip p, p ≤ 32 → Canonical (NetworkBlock.new ip p)) ∧
    (∀ a b c, try_merge a b = some c → Canonical c) ∧
    (∀ l, (∀ x ∈ l, Canonical x) → ∀ x ∈ optimize_blocks_simple l, Canonical x) :=
  ⟨new_canon, try_merge_canon, optimize_canon⟩

/-- Witness for C9: a constructed block, a merge result and a sweep output
are canonical. -/
theorem engine_preserves_canonical_witness :
    Canonical (NetworkBlock.new 16909060 24) ∧ Canonical ⟨0, 31⟩ ∧
    Canonical ⟨16777216, 23⟩ :=
  ⟨engine_preserves_canonical.1 16909060 24 (by decide),
   engine_preserves_canonical.2.1 ⟨0, 32⟩ ⟨1, 32⟩ ⟨0, 31⟩ (by decide),
   engine_preserves_canonical.2.2 [⟨16777216, 24⟩, ⟨16777472, 24⟩] (by decide)
     ⟨16777216, 23⟩ (by decide)⟩

/-- Claim C10: the Aggregation Sweep is order-insensitive — on two input
lists that are permutations of the same multiset it returns identical
output lists, so its result does not depend on `HashSet` iteration
order. -/
theorem sweep_perm_invariant (v w : List NetworkBlock) (h : v.Perm w) :
    optimize_blocks_simple v = optimize_blocks_simple w :=
  optimize_perm_eq v w h

/-- Witness for C10 at a transposed pair. -/
theorem sweep_perm_invariant_witness :
    optimize_blocks_simple [⟨16777472, 24⟩, ⟨16777216, 24⟩] =
      optimize_blocks_simple [⟨16777216, 24⟩, ⟨16777472, 24⟩] :=
  sweep_perm_invariant _ _ (by decide)
